import Mathlib

/-!
Verification development for the `calf` library (`calf/__init__.py`): a
shallow embedding of its doc-string parsing, parameter refinement, loader
selection, value conversion and overflow-argument brokering, together with
theorems settling the specification claims about those components.

Python strings are modelled as `List Char`; Python `None`-able values as
`Option`; `sys.exit`/raised exceptions as `Except`.  All definitions are
translated from the Python source; deviations forced by regex corner cases
are noted in comments at the definition concerned.
-/

namespace Calf

/-- The set matched by Python's `\s` and stripped by `str.strip()` for the
ASCII range (`' '`, `\t`, `\n`, `\r`, `\f`, `\v`).  Non-ASCII whitespace is
outside the scope of this model. -/
def pySpace (c : Char) : Bool :=
  c = ' ' ∨ c = '\t' ∨ c = '\n' ∨ c = '\r' ∨ c = '\x0c' ∨ c = '\x0b'

/-- Python `str.lstrip()`. -/
def pyLStrip (s : List Char) : List Char := s.dropWhile pySpace

/-- Python `str.rstrip()`. -/
def pyRStrip (s : List Char) : List Char := (s.reverse.dropWhile pySpace).reverse

/-- Python `str.strip()`. -/
def pyStrip (s : List Char) : List Char := pyRStrip (pyLStrip s)

/-- Python `str.split('\n')`: always at least one piece. -/
def splitLines : List Char → List (List Char)
  | [] => [[]]
  | '\n' :: r => [] :: splitLines r
  | c :: r =>
    match splitLines r with
    | h :: t => (c :: h) :: t
    | [] => [[c]]

/-- Model of `'\n'.join(lines)`. -/
def joinLines (ls : List (List Char)) : List Char := List.intercalate ['\n'] ls

/-- Python `str.expandtabs()` (tab size 8) on a single line, carrying the
current column; `\r` resets the column as in CPython. -/
def expandLine : Nat → List Char → List Char
  | _, [] => []
  | col, '\t' :: r => List.replicate (8 - col % 8) ' ' ++ expandLine (col + (8 - col % 8)) r
  | _, '\r' :: r => '\r' :: expandLine 0 r
  | col, c :: r => c :: expandLine (col + 1) r

/-- A line is blank when `line.strip()` is falsy, i.e. all characters are
whitespace (the empty line included). -/
def isBlank (l : List Char) : Bool := l.all pySpace

/-- Model of `inspect.cleandoc`: expand tabs, split lines, compute the common margin
of the non-blank lines after the first, lstrip the first line, cut the
margin from the rest, then drop empty lines at both ends.  `expandtabs`
before splitting equals per-line expansion because the column resets at
every newline. -/
def cleandoc (doc : List Char) : List Char :=
  let ls := (splitLines doc).map (expandLine 0)
  let margins := ((ls.tail.filter (fun l => !isBlank l)).map
    (fun l => (l.takeWhile pySpace).length))
  let ls1 : List (List Char) :=
    match ls with
    | [] => []
    | h :: t =>
      pyLStrip h ::
        (match margins.min? with
         | none => t
         | some m => t.map (fun l => l.drop m))
  let ls2 := ((ls1.reverse.dropWhile (fun l => l.isEmpty)).reverse).dropWhile
    (fun l => l.isEmpty)
  joinLines ls2

/-! ## Indentation grouper (`indented_groups`) -/

/-- Model of `is_start` test of `indented_groups`: a line opens a new group iff the
character at position `ilen` is not a space.  Every line reaching this test
is non-blank with at least `ilen` leading spaces, hence longer than `ilen`;
the `[]` branch is unreachable and chosen arbitrarily. -/
def isGroupStart (ilen : Nat) (l : List Char) : Bool :=
  match l.drop ilen with
  | [] => true
  | c :: _ => c ≠ ' '

/-- Accumulate lines into the current group until the next group start
(the `itertools.groupby` over accumulated start counts). -/
def splitGroupsGo (ilen : Nat) (acc : List (List Char)) :
    List (List Char) → List (List (List Char))
  | [] => [acc.reverse]
  | l :: ls =>
    if isGroupStart ilen l then acc.reverse :: splitGroupsGo ilen [l] ls
    else splitGroupsGo ilen (l :: acc) ls

/-- Split a run of lines into groups, each starting at a line whose
indentation is exactly the baseline. -/
def splitGroups (ilen : Nat) : List (List Char) → List (List (List Char))
  | [] => []
  | l :: ls => splitGroupsGo ilen [l] ls

/-- The preprocessed line sequence of `indented_groups`: tab-expanded,
blank lines discarded. -/
def procLines (raw : List (List Char)) : List (List Char) :=
  (raw.map (expandLine 0)).filter (fun l => !isBlank l)

/-- Model of `indented_groups` working on the already-split lines: expand tabs,
discard blank lines, take the baseline from the first line's leading
spaces, keep the leading run of lines indented at least the baseline, and
group them. -/
def indentedGroupsLines (raw : List (List Char)) : List (List (List Char)) :=
  let lines := procLines raw
  match lines with
  | [] => []
  | l0 :: _ =>
    let ilen := (l0.takeWhile (fun c => c = ' ')).length
    let kept := lines.takeWhile (fun l => l.take ilen = List.replicate ilen ' ')
    splitGroups ilen kept

/-- Model of `indented_groups` on raw text (`inp.split('\n')` and then per-line
processing as in the source). -/
def indentedGroups (inp : List Char) : List (List (List Char)) :=
  indentedGroupsLines (splitLines inp)

/-! ## ParamInfo and the refiner (`basic_param_parser`) -/

/-- Model of `ParamInfo`: description, short option string (`''` when absent) and
optional choices, as in the Python class. -/
structure ParamInfo where
  desc : List Char
  short : List Char
  choices : Option (List (List Char))
deriving DecidableEq, Repr

/-- Opening brace character, kept out of literals. -/
def lbrace : Char := Char.ofNat 123

/-- Closing brace character, kept out of literals. -/
def rbrace : Char := Char.ofNat 125

/-- Model of `re.match(r'^\((-[A-Za-z0-9])\)\s*(.*)', desc)`: a leading
parenthesised short option.  On success returns the short string and
group 2, which is the text after the whitespace run up to the next
newline (`.` does not cross newlines and only the group is kept). -/
def shortMatch (desc : List Char) : Option (List Char × List Char) :=
  match desc with
  | '(' :: '-' :: c :: ')' :: rest =>
    if c.isAlpha ∨ c.isDigit then
      some (['-', c], (rest.dropWhile pySpace).takeWhile (fun d => d ≠ '\n'))
    else none
  | _ => none

/-- Model of `re.split(r',\s*', s)`: split on a comma followed by a greedy
whitespace run. -/
def splitCommaWs : List Char → List (List Char)
  | [] => [[]]
  | ',' :: r => [] :: splitCommaWs (r.dropWhile pySpace)
  | c :: r =>
    match splitCommaWs r with
    | h :: t => (c :: h) :: t
    | [] => [[c]]
termination_by l => l.length
decreasing_by
  all_goals simp only [List.length_cons]
  · exact Nat.lt_succ_of_le (List.IsSuffix.length_le (List.dropWhile_suffix pySpace))
  · exact Nat.lt_succ_self _

/-- The core of `re.match(r'^(.*?) *\{([^{}]*)\}([.,;]?)$', desc)` once the
final brace has been located: `core2` is everything before the closing
brace.  The opening brace must be the last one (no braces may occur
between the pair); the lazy `.*?` makes the literal-space run before the
opening brace maximal, so group 1 is the prefix with trailing spaces
removed; group 1 cannot contain a newline (`.`), while the brace content
may. -/
def choiceCore (core2 : List Char) : Option (List Char × List Char) :=
  let r := core2.reverse
  let insR := r.takeWhile (fun c => c ≠ lbrace)
  if insR.length = core2.length then none
  else
    let inside := insR.reverse
    if inside.contains rbrace then none
    else
      let A := ((r.drop (insR.length + 1)).dropWhile (fun c => c = ' ')).reverse
      if A.contains '\n' then none else some (A, inside)

/-- Model of `re.match(r'^(.*?) *\{([^{}]*)\}([.,;]?)$', desc)`.  Without `re.M`
the `$` may sit before one final newline, which is therefore peeled first;
the optional punctuation class and the closing brace are then forced from
the end of the string.  Returns (group 1, group 2, group 3). -/
def choiceMatch (desc : List Char) : Option (List Char × List Char × List Char) :=
  let body := if desc.getLast? = some '\n' then desc.dropLast else desc
  let peeled : List Char × List Char :=
    match body.getLast? with
    | some c => if c = '.' ∨ c = ',' ∨ c = ';' then (body.dropLast, [c]) else (body, [])
    | none => (body, [])
  match peeled.1.getLast? with
  | some c =>
    if c = rbrace then
      match choiceCore peeled.1.dropLast with
      | some (A, inside) => some (A, inside, peeled.2)
      | none => none
    else none
  | none => none

/-- Step 1 of `basic_param_parser`: extract a leading `(-x)` short option. -/
def shortStep (p : ParamInfo) : ParamInfo :=
  match shortMatch p.desc with
  | some (s, rest) => { p with desc := rest, short := s }
  | none => p

/-- Step 2 of `basic_param_parser`: extract a trailing brace-delimited,
comma-containing list as choices and rebuild the description from groups 1
and 3. -/
def choiceStep (p : ParamInfo) : ParamInfo :=
  match choiceMatch p.desc with
  | some (A, inside, punct) =>
    if inside.contains ',' then
      { p with choices := some ((splitCommaWs inside).map pyStrip),
               desc := A ++ punct }
    else p
  | none => p

/-- Model of `basic_param_parser`: short-option extraction, choice extraction, then
strip the description.  (The Python function mutates in place; here it
returns the new record.) -/
def basicParamParse (p : ParamInfo) : ParamInfo :=
  let p1 := shortStep p
  let p2 := choiceStep p1
  { p2 with desc := pyStrip p2.desc }

/-- A description on which a further refiner pass finds nothing to do:
neither the short-option pattern nor the comma-containing choice pattern
matches it. -/
def refineStable (d : List Char) : Bool :=
  (shortMatch d).isNone &&
    (match choiceMatch d with
     | some (_, inside, _) => !inside.contains ','
     | none => true)

/-! ## Doc parsers

`plain_doc_parser`, `google_doc_parser`, `sphinx_doc_parser` and
`numpy_doc_parser` (renamed here with a `Parse` suffix).  The parameter
map is an association list with Python-dict update semantics. -/

/-- Python dict assignment `m[k] = v`: replace in place, else append. -/
def dictSet {α β : Type} [BEq α] (m : List (α × β)) (k : α) (v : β) :
    List (α × β) :=
  if m.any (fun kv => kv.1 == k) then
    m.map (fun kv => if kv.1 == k then (kv.1, v) else kv)
  else m ++ [(k, v)]

/-- Doc parser result: summary text and parameter-info map. -/
abbrev DocParseRet := List Char × List (List Char × ParamInfo)

/-- Model of `plain_doc_parser`: `inspect.cleandoc` and an empty map. -/
def plainDocParse (doc : List Char) : DocParseRet := (cleandoc doc, [])

/-- Remove `pre` from the front of `l` if it is literally there. -/
def stripPrefixCh : List Char → List Char → Option (List Char)
  | [], l => some l
  | c :: cs, d :: ds => if c == d then stripPrefixCh cs ds else none
  | _ :: _, [] => none

/-- Case-insensitive version of `stripPrefixCh` (ASCII lowering, as in
`re.I` over these ASCII patterns). -/
def stripPrefixCI : List Char → List Char → Option (List Char)
  | [], l => some l
  | c :: cs, d :: ds => if c.toLower == d.toLower then stripPrefixCI cs ds else none
  | _ :: _, [] => none

/-- Model of `:\s*$` restricted to the line: a colon followed by whitespace (the
trailing `\s*` can also swallow following blank lines of the docstring,
which is unobservable downstream because blank lines are discarded before
grouping). -/
def colonWsTail : List Char → Bool
  | [] => false
  | c :: rest => if c = ':' then isBlank rest else false

/-- Tail of a section-header line after its stem: `s?:\s*$` restricted to
the line — a colon right away, or an `s` and then the colon. -/
def reSectionTail : List Char → Bool
  | [] => false
  | c :: rest =>
    if c = ':' then isBlank rest
    else if c = 's' then colonWsTail rest
    else false

/-- A line matching one of the stems followed by `s?:\s*$`. -/
def stemHeaderRe (stems : List (List Char)) (l : List Char) : Bool :=
  stems.any (fun w =>
    match stripPrefixCh w l with
    | some r => reSectionTail r
    | none => false)

/-- The stems of `^(?:Args?|Returns?|Raises?|Yields?|Examples?|Attributes?):\s*$`. -/
def headerStems : List (List Char) :=
  (["Arg", "Return", "Raise", "Yield", "Example", "Attribute"]).map String.toList

/-- A line matching the google section-header pattern. -/
def sectionHeaderRe (l : List Char) : Bool := stemHeaderRe headerStems l

/-- A line matching `^Args?:\s*$`. -/
def argsHeaderRe (l : List Char) : Bool := stemHeaderRe ["Arg".toList] l

/-- Model of `re.split(pattern-on-whole-lines, text, 1, re.M)` in line form: the
lines before the first matching line, the matching line, and the rest. -/
def splitAtFirst (p : List Char → Bool) :
    List (List Char) → Option (List (List Char) × List Char × List (List Char))
  | [] => none
  | l :: ls =>
    if p l then some ([], l, ls)
    else
      match splitAtFirst p ls with
      | some (a, m, b) => some (l :: a, m, b)
      | none => none

/-- Python `str.partition(sep)` restricted to its first and third parts:
with no separator the whole string is the first part and the rest empty. -/
def partitionCh (sep : Char) : List Char → List Char × List Char
  | [] => ([], [])
  | c :: r =>
    if c = sep then ([], r)
    else
      let p := partitionCh sep r
      (c :: p.1, p.2)

/-- One google `Args` group: `' '.join(group)`, split at the first colon,
name cut at the first space or open parenthesis
(`re.split(r'[\ \(]', name.strip())[0]`), description stripped. -/
def googleGroupEntry (g : List (List Char)) : List Char × ParamInfo :=
  let arg := List.intercalate [' '] g
  let pr := partitionCh ':' arg
  let name := (pyStrip pr.1).takeWhile (fun c => ¬(c = ' ' ∨ c = '('))
  (name, ⟨pyStrip pr.2, [], none⟩)

/-- Model of `google_doc_parser`.  The first `re.split` keeps the text before the
first section-header line as the summary (the separator and remainder are
re-joined, so working on lines is exact); the second `re.split` isolates
the block after the first `Args?:` line; its groups populate the map. -/
def googleDocParse (doc : List Char) : DocParseRet :=
  let main := cleandoc doc
  let ls := splitLines main
  match splitAtFirst sectionHeaderRe ls with
  | none => (main, [])
  | some (before, m, after) =>
    let summary := if before.isEmpty then [] else joinLines before ++ ['\n']
    match splitAtFirst argsHeaderRe (m :: after) with
    | none => (summary, [])
    | some (_, _, tailLines) =>
      (summary,
        (indentedGroupsLines tailLines).foldl
          (fun acc g =>
            let e := googleGroupEntry g
            dictSet acc e.1 e.2) [])

/-- A line matching `^[:@].*:` — starts with a colon or at sign and has a
later colon on the same line. -/
def sphinxFieldRe (l : List Char) : Bool :=
  match l with
  | c :: rest => (c == ':' || c == '@') && rest.contains ':'
  | [] => false

/-- Backtick character, kept out of literals. -/
def backtick : Char := Char.ofNat 96

/-- Remove every copy of `ch` from both ends (`str.strip(ch)`). -/
def stripCharBoth (ch : Char) (s : List Char) : List Char :=
  ((s.dropWhile (fun c => c = ch)).reverse.dropWhile (fun c => c = ch)).reverse

/-- Model of `re.match(r'[:@]param\s+([^:]+):\s*(.*)$', joined)`: returns the raw
name group and the description group (after the whitespace run). -/
def sphinxGroupMatch (s : List Char) : Option (List Char × List Char) :=
  match s with
  | c :: rest =>
    if c == ':' || c == '@' then
      match stripPrefixCh ("param".toList) rest with
      | some r1 =>
        if (r1.takeWhile pySpace).isEmpty then none
        else
          let r2 := r1.dropWhile pySpace
          let name := r2.takeWhile (fun d => d ≠ ':')
          if name.isEmpty then none
          else
            match r2.drop name.length with
            | ':' :: r3 => some (name, r3.dropWhile pySpace)
            | _ => none
      | none => none
    else none
  | [] => none

/-- Model of `sphinx_doc_parser`: split at the first field line; the separator is
the matched prefix of that line and is re-joined with the remainder, so
grouping starts at the matching line; each group is matched against the
`param` pattern, the name is stripped of backticks and leading asterisks,
non-matching groups are skipped. -/
def sphinxDocParse (doc : List Char) : DocParseRet :=
  let main := cleandoc doc
  let ls := splitLines main
  match splitAtFirst sphinxFieldRe ls with
  | none => (main, [])
  | some (before, m, after) =>
    let summary := if before.isEmpty then [] else joinLines before ++ ['\n']
    (summary,
      (indentedGroupsLines (m :: after)).foldl
        (fun acc g =>
          match sphinxGroupMatch (List.intercalate [' '] g) with
          | some (name, desc) =>
            dictSet acc ((stripCharBoth backtick name).dropWhile (fun c => c = '*'))
              (⟨pyStrip desc, [], none⟩ : ParamInfo)
          | none => acc) [])

/-- A dashed underline: first non-whitespace characters are a dash run and
the rest of the line is whitespace (`\s*-+\s*` up to the newline). -/
def isDashLine (l : List Char) : Bool :=
  match pyLStrip l with
  | [] => false
  | c :: _ => c == '-' && isBlank ((pyLStrip l).dropWhile (fun d => d = '-'))

/-- First index `≥ i` whose line is non-blank. -/
def findNonblankFrom (ls : List (List Char)) (i : Nat) : Option Nat :=
  ((ls.drop i).findIdx? (fun l => !isBlank l)).map (fun k => k + i)

/-- The `(a)` scan of the numpy separator search: starting from the
non-blank line `m`, look for a non-blank line `m` whose next non-blank
line is a dashed underline that is not the final line (the pattern needs a
newline after the dashes). -/
def numpyFindSepLoop (ls : List (List Char)) : Nat → Nat → Option (Nat × Nat)
  | 0, _ => none
  | fuel + 1, m =>
    match findNonblankFrom ls (m + 1) with
    | none => none
    | some j =>
      if isDashLine (ls.getD j []) ∧ j + 1 < ls.length then some (m, j)
      else numpyFindSepLoop ls fuel j

/-- Leftmost match of `\s*([^\n]+\n\s*\s*-+\s*\n)` in line form, as a pair
(header-line index, dash-line index).  The greedy leading `\s*` makes the
header the last possible line before the dashes, i.e. the previous
non-blank line; only before the first non-blank line can a whitespace-only
(but non-empty) line serve as the header, via backtracking, when the first
non-blank line is itself the dashed underline. -/
def numpyFindSep (ls : List (List Char)) : Option (Nat × Nat) :=
  match findNonblankFrom ls 0 with
  | none => none
  | some m1 =>
    match numpyFindSepLoop ls ls.length m1 with
    | some r => some r
    | none =>
      if isDashLine (ls.getD m1 []) ∧ m1 + 1 < ls.length then
        match (ls.take m1).reverse.findIdx? (fun l => !l.isEmpty) with
        | some k => some (m1 - 1 - k, m1)
        | none => none
      else none

/-- Successive separator matches: each yields the (lstripped) header line
and the value lines running to the start of the next match.  Whitespace
absorbed by the separators' `\s*` fringes is only ever blank lines, which
the grouper discards, so whole lines are kept here. -/
def numpyPairs (fuel : Nat) (ls : List (List Char)) :
    List (List Char × List (List Char)) :=
  match fuel with
  | 0 => []
  | fuel + 1 =>
    match numpyFindSep ls with
    | none => []
    | some (h, j) =>
      let rest := ls.drop (j + 1)
      let hdr := pyLStrip (ls.getD h [])
      match numpyFindSep rest with
      | none => [(hdr, rest)]
      | some (h2, _) => (hdr, rest.take h2) :: numpyPairs fuel rest

/-- Model of `re.match(r'parameters?\s*\n', header, re.I)` applied to the captured
header (whose first line is `hdr` and which always continues with a
newline): case-insensitive `parameter`, optional `s`, rest of the line
whitespace. -/
def isParamHeader (hdr : List Char) : Bool :=
  match stripPrefixCI ("parameter".toList) hdr with
  | some r =>
    match r with
    | c :: r2 => if c.toLower == 's' then isBlank r2 else isBlank (c :: r2)
    | [] => true
  | none => false

/-- One numpy group: the name is the first line up to the first colon,
stripped; the description joins the stripped remaining lines. -/
def numpyGroupEntry (g : List (List Char)) : List Char × ParamInfo :=
  (pyStrip (partitionCh ':' (g.headD [])).1,
    ⟨List.intercalate [' '] ((g.drop 1).map pyStrip), [], none⟩)

/-- Model of `numpy_doc_parser`: split on header/underline pairs; the summary is
the text before the first match (the pattern's leading `\s*` strips its
trailing whitespace); every `Parameters` section contributes its groups,
other sections are skipped. -/
def numpyDocParse (doc : List Char) : DocParseRet :=
  let main := cleandoc doc
  let ls := splitLines main
  match numpyFindSep ls with
  | none => (main, [])
  | some (h, _) =>
    (pyRStrip (joinLines (ls.take h)),
      (numpyPairs ls.length ls).foldl
        (fun acc pr =>
          if isParamHeader pr.1 then
            (indentedGroupsLines pr.2).foldl
              (fun acc2 g =>
                let e := numpyGroupEntry g
                dictSet acc2 e.1 e.2) acc
          else acc) [])

/-! ## Loader selection (`LoaderSelector.select_loader_cls`) -/

/-- Parameter kind as used by `CalfRunner.add_param`. -/
inductive PKind
  | pos
  | opt
  | var
  | varkw
deriving DecidableEq, Repr

/-- The Python types that appear as parameter types in the claims under
study (`str` is also the fallback for unannotated parameters without a
default). -/
inductive PType
  | str
  | int
  | bool
deriving DecidableEq, Repr

/-- The loader classes returned by `select_loader_cls`. -/
inductive LoaderCls
  | OptArgLoader
  | VarArgLoader
  | MapArgLoader
  | PosArgLoader
deriving DecidableEq, Repr

/-- A runtime value flowing through the namespace and into the call:
Python `None`, a string, an int or a bool. -/
inductive Value
  | vnone
  | vstr (s : List Char)
  | vint (n : Int)
  | vbool (b : Bool)
deriving DecidableEq, Repr

/-- A parameter default: either the `NO_DEFAULT` sentinel or a value
(Python `None` is `DefaultV.val Value.vnone`). -/
inductive DefaultV
  | noDefault
  | val (v : Value)
deriving DecidableEq, Repr

/-- Model of `LoaderSelector.select_loader_cls`: the default decision table.  The
`param`, `info` and `default` arguments are accepted and ignored exactly
as in the source. -/
def selectLoaderCls (_param : String) (ptype : PType) (kind : PKind)
    (_info : Option ParamInfo) (_default : DefaultV) : LoaderCls :=
  if kind = .opt ∨ (kind = .pos ∧ ptype = .bool) then .OptArgLoader
  else if kind = .var then .VarArgLoader
  else if kind = .varkw then .MapArgLoader
  else .PosArgLoader

/-! ## Value conversion (`BaseArgLoader.conv`) and errors -/

/-- The two fatal runtime error conditions: a conversion failure (which
prints the offending value and the type name to stderr and exits with the
given status) and an unrecognized remaining argument (a raised
`ValueError` carrying the token). -/
inductive CalfError
  | convError (value : List Char) (typeName : String) (exitCode : Nat)
  | unrecognizedArg (tok : List Char)
deriving DecidableEq, Repr

/-- The printable name of a type (`ptype.__name__`). -/
def typeName : PType → String
  | .str => "str"
  | .int => "int"
  | .bool => "bool"

/-- Digit run of a Python `int` literal with single underscores allowed
between digits, accumulating the value. -/
def parseIntDigitsGo (acc : Nat) : List Char → Option Nat
  | [] => some acc
  | '_' :: c :: r =>
    if c.isDigit then parseIntDigitsGo (acc * 10 + (c.toNat - '0'.toNat)) r else none
  | '_' :: [] => none
  | c :: r =>
    if c.isDigit then parseIntDigitsGo (acc * 10 + (c.toNat - '0'.toNat)) r else none

/-- Nonempty digit run (underscore-separated) as a natural number. -/
def parseIntDigits : List Char → Option Nat
  | [] => none
  | c :: r =>
    if c.isDigit then parseIntDigitsGo (c.toNat - '0'.toNat) r else none

/-- Python `int(s)` on an ASCII string: surrounding whitespace, an
optional sign, then digits (with underscores); anything else raises
`ValueError`, modelled as `none`. -/
def pyIntOfString (s : List Char) : Option Int :=
  let t := pyStrip s
  match t with
  | '+' :: r => (parseIntDigits r).map Int.ofNat
  | '-' :: r => (parseIntDigits r).map (fun n => -(n : Int))
  | r => (parseIntDigits r).map Int.ofNat

/-- Calling the type as a constructor on a string: `str(s)` is the
identity, `int(s)` parses or raises `ValueError` (`none`), `bool(s)` is
the truthiness of the string and never raises. -/
def pyCallType : PType → List Char → Option Value
  | .str, s => some (.vstr s)
  | .int, s => (pyIntOfString s).map .vint
  | .bool, s => some (.vbool (!s.isEmpty))

/-- Calling the type as a constructor on a non-string namespace value
(e.g. the `False` produced by a `store_true` option): never a
`ValueError` for the modelled types. -/
def pyCallTypeOn : PType → Value → Value
  | .str, .vbool b => .vstr (if b then "True".toList else "False".toList)
  | .str, .vint n => .vstr (toString n).toList
  | .str, .vstr s => .vstr s
  | .str, .vnone => .vstr "None".toList
  | .int, .vbool b => .vint (if b then 1 else 0)
  | .int, .vint n => .vint n
  | .int, .vstr _ => .vint 0  -- unreachable: string arguments go through pyCallType
  | .int, .vnone => .vint 0   -- unreachable: None is filtered before the call
  | .bool, v => .vbool (v ≠ .vnone ∧ v ≠ .vstr [] ∧ v ≠ .vint 0 ∧ v ≠ .vbool false)

/-- Model of `BaseArgLoader.conv`: `val if val is None else self._ptype(val)`, with
a `ValueError` from the constructor reported (naming the value and the
type) and turned into `sys.exit(1)`. -/
def conv (ptype : PType) : Value → Except CalfError Value
  | .vnone => .ok .vnone
  | .vstr s =>
    match pyCallType ptype s with
    | some v => .ok v
    | none => .error (.convError s (typeName ptype) 1)
  | v => .ok (pyCallTypeOn ptype v)

/-- The annotation shapes handled by `BaseArgLoader.__init__`: a plain
type or `typing.Optional[T]`. -/
inductive Ann
  | plain (t : PType)
  | optional (t : PType)
deriving DecidableEq, Repr

/-- The `Optional` unwrapping of `BaseArgLoader.__init__`: an
`Optional[T]` annotation becomes `T`, and a missing default becomes a
default of `None`. -/
def initLoaderType (ann : Ann) (default : DefaultV) : PType × DefaultV :=
  match ann with
  | .plain t => (t, default)
  | .optional t => (t, if default = .noDefault then .val .vnone else default)

/-! ## Overflow-argument broker (`VarArgBroker`) -/

/-- A command-line token. -/
abbrev Tok := List Char

/-- A broker matcher: a literal substring (`var_ident in pval`) or the
single compiled pattern the library registers, `re.compile(r'^[^=].*=')`. -/
inductive VarIdent
  | substr (s : Tok)
  | kvPattern
deriving DecidableEq, Repr

/-- Contiguous-substring test (Python `needle in haystack` on strings). -/
def isSubstring (needle hay : Tok) : Bool :=
  match hay with
  | [] => needle.isEmpty
  | _ :: t => (needle.isPrefixOf hay) || isSubstring needle t

/-- Model of `re.match(r'^[^=].*=', pval)`: the first character is anything except
an equals sign and an equals sign occurs later, reachable without
crossing a newline (`.` does not match newlines). -/
def kvMatch : Tok → Bool
  | [] => false
  | c :: rest => c ≠ '=' && (rest.takeWhile (fun d => d ≠ '\n')).contains '='

/-- Model of `VarArgBroker._match_arg`. -/
def matchArg : VarIdent → Tok → Bool
  | .substr s, pval => isSubstring s pval
  | .kvPattern, pval => kvMatch pval

/-- The namespace records containing the variadic string lists, as an
association map from attribute name to token list. -/
abbrev Ns := List (String × List Tok)

/-- Model of `getattr(namespace, p)` for a variadic record (missing attributes do
not occur in the modelled flows). -/
def nsGet (ns : Ns) (p : String) : List Tok :=
  match ns.find? (fun kv => kv.1 == p) with
  | some kv => kv.2
  | none => []

/-- Replace the token list stored under `p`. -/
def nsSet (ns : Ns) (p : String) (v : List Tok) : Ns :=
  ns.map (fun kv => if kv.1 == p then (kv.1, v) else kv)

/-- Model of `getattr(namespace, param).append(remain)`. -/
def nsAppend (ns : Ns) (p : String) (t : Tok) : Ns :=
  nsSet ns p (nsGet ns p ++ [t])

/-- The token loop of `VarArgBroker.distribute`: each token goes to the
first registration whose matcher accepts it; a token accepted by none
raises `ValueError` (modelled as the error carrying the token). -/
def distributeGo (regs : List (VarIdent × String)) : Ns → List Tok → Except Tok Ns
  | ns, [] => .ok ns
  | ns, t :: ts =>
    match regs.find? (fun r => matchArg r.1 t) with
    | some r => distributeGo regs (nsAppend ns r.2 t) ts
    | none => .error t

/-- Model of `VarArgBroker.distribute`: nothing to do without registrations;
otherwise merge the first-registered record with the engine's leftover
tokens, clear that record, and classify every token in order. -/
def distribute (regs : List (VarIdent × String)) (ns : Ns) (others : List Tok) :
    Except Tok Ns :=
  match regs with
  | [] => .ok ns
  | r0 :: _ =>
    let remains := nsGet ns r0.2 ++ others
    distributeGo regs (nsSet ns r0.2 []) remains

/-! ## Loading parsed values into call arguments (`ns2params`) -/

/-- The per-parameter loader state needed by `load`: its class is implied
by the constructor, with its parameter name and (unwrapped) type. -/
inductive LoaderSpec
  | posL (param : String) (t : PType)
  | optL (param : String) (t : PType)
  | varL (param : String) (t : PType)
  | mapL (param : String) (t : PType)
deriving DecidableEq, Repr

/-- The parsed `argparse` namespace as seen by the loaders: scalar
attributes (positionals and options) and list attributes (the `nargs='*'`
variadic records). -/
structure NsModel where
  vals : List (String × Value)
  lists : Ns
deriving Repr

/-- Scalar namespace attribute (absence does not occur in the modelled
flows). -/
def nsVal (ns : NsModel) (p : String) : Value :=
  match ns.vals.find? (fun kv => kv.1 == p) with
  | some kv => kv.2
  | none => .vnone

/-- The loop body of `MapArgLoader.load`: split each raw token at the
first `=`, convert the right side, store under the left side. -/
def mapLoadGo (t : PType) (kwd : List (String × Value)) :
    List Tok → Except CalfError (List (String × Value))
  | [] => .ok kwd
  | pval :: rest =>
    let pr := partitionCh '=' pval
    match conv t (.vstr pr.2) with
    | .ok v => mapLoadGo t (dictSet kwd (⟨pr.1⟩ : String) v) rest
    | .error e => .error e

/-- Model of `loader.load(namespace, pos, kwd)` for each loader class:
`PosArgLoader` appends the converted scalar to the positional list,
`OptArgLoader` stores it in the keyword map, `VarArgLoader` extends the
positional list with the converted tokens, `MapArgLoader` splits each
token on `=` into the keyword map. -/
def loadOne (ns : NsModel) (acc : List Value × List (String × Value)) :
    LoaderSpec → Except CalfError (List Value × List (String × Value))
  | .posL p t =>
    match conv t (nsVal ns p) with
    | .ok v => .ok (acc.1 ++ [v], acc.2)
    | .error e => .error e
  | .optL p t =>
    match conv t (nsVal ns p) with
    | .ok v => .ok (acc.1, dictSet acc.2 p v)
    | .error e => .error e
  | .varL p t =>
    match (nsGet ns.lists p).mapM (fun s => conv t (.vstr s)) with
    | .ok vs => .ok (acc.1 ++ vs, acc.2)
    | .error e => .error e
  | .mapL p t =>
    match mapLoadGo t acc.2 (nsGet ns.lists p) with
    | .ok kwd => .ok (acc.1, kwd)
    | .error e => .error e

/-- Model of `CalfRunner.ns2params`: run every loader in registration order,
accumulating the positional and keyword arguments; a conversion failure
aborts immediately. -/
def ns2params (loaders : List LoaderSpec) (ns : NsModel) :
    Except CalfError (List Value × List (String × Value)) :=
  loaders.foldlM (loadOne ns) ([], [])

/-! ## Scenario pipelines

`CalfRunner.get_calf` adds the keyword-variadic parameter before the
positional-variadic one, so for `f(*args, **kwargs)` the broker holds the
`kwargs` pattern registration first and the `args` accept-all registration
second, and `arg_loaders` iterates `kwargs` before `args`.  The flag
engine (`argparse`, an external collaborator) is modelled at its
interface: with only dash-free tokens, its greedy matcher hands every
token to the first-declared `nargs='*'` positional and leaves the other
empty, with no leftover tokens. -/

/-- The full pipeline for `f(*args, **kwargs)` (no annotations, so both
types default to `str`) after the engine parse: broker distribution, then
`ns2params` over the two variadic loaders in registration order. -/
def varKwPipeline (tokens : List Tok) :
    Except CalfError (List Value × List (String × Value)) :=
  let regs : List (VarIdent × String) := [(.kvPattern, "kwargs"), (.substr [], "args")]
  let ns : Ns := [("kwargs", tokens), ("args", [])]
  match distribute regs ns [] with
  | .error t => .error (.unrecognizedArg t)
  | .ok ns' => ns2params [.mapL "kwargs" .str, .varL "args" .str] ⟨[], ns'⟩

/-- The pipeline for `f(**kwargs: str)` alone: a single pattern
registration, the engine handing its tokens to `kwargs`. -/
def onlyKwPipeline (tokens : List Tok) :
    Except CalfError (List Value × List (String × Value)) :=
  let regs : List (VarIdent × String) := [(.kvPattern, "kwargs")]
  let ns : Ns := [("kwargs", tokens)]
  match distribute regs ns [] with
  | .error t => .error (.unrecognizedArg t)
  | .ok ns' => ns2params [.mapL "kwargs" .str] ⟨[], ns'⟩

/-- The loaders of `f(var1: int, var2: bool, *, var3: str, var4: str = 'bar')`
in `get_calf` order: positional parameters first, then keyword-only ones.
`var2` is positional of type `bool`, hence an option loader
(`store_true`). -/
def scenarioLoaders : List LoaderSpec :=
  [.posL "var1" .int, .optL "var2" .bool, .optL "var3" .str, .optL "var4" .str]

/-- The engine's namespace for the invocation with tokens
`['x', '--var3', 'x']`: the positional token fills `var1`, `--var3` takes
`'x'`, the absent flag `var2` keeps its `store_true` default `False`, and
`var4` keeps its declared default `'bar'`. -/
def scenarioNs : NsModel :=
  ⟨[("var1", .vstr "x".toList), ("var2", .vbool false),
    ("var3", .vstr "x".toList), ("var4", .vstr "bar".toList)], []⟩

/-! ## Spec-side twin of the google parser for the refinement claim

`googleDocClaim` is written from the (amended) specification sentence:
split at the first line that consists entirely of one of the listed
section headers — singular or plural, case-sensitive — followed by a
mandatory colon and optional trailing whitespace; the text before that
line is the summary; the parameter map comes only from the sub-block
after a line that is literally `Args` or `Arg` with the colon, each
group's name-part cut at the first space or open parenthesis and mapped
to the trimmed text after the first colon. -/

/-- A line that is exactly one of `words`, then `:`, then whitespace. -/
def wordHeaderLine (words : List (List Char)) (l : List Char) : Bool :=
  words.any (fun w =>
    match stripPrefixCh w l with
    | some r => colonWsTail r
    | none => false)

/-- The twelve header words of the specification, singular and plural. -/
def specHeaderWords : List (List Char) :=
  (["Arg", "Args", "Return", "Returns", "Raise", "Raises", "Yield", "Yields",
    "Example", "Examples", "Attribute", "Attributes"]).map String.toList

/-- The two forms of the parameter-section header. -/
def specArgsWords : List (List Char) := (["Arg", "Args"]).map String.toList

/-- The google parser as the specification describes it (with the colon
made mandatory). -/
def googleDocClaim (doc : List Char) : DocParseRet :=
  let main := cleandoc doc
  let ls := splitLines main
  match splitAtFirst (wordHeaderLine specHeaderWords) ls with
  | none => (main, [])
  | some (before, m, after) =>
    let summary := if before.isEmpty then [] else joinLines before ++ ['\n']
    match splitAtFirst (wordHeaderLine specArgsWords) (m :: after) with
    | none => (summary, [])
    | some (_, _, tailLines) =>
      (summary,
        (indentedGroupsLines tailLines).foldl
          (fun acc g =>
            let e := googleGroupEntry g
            dictSet acc e.1 e.2) [])

/-! # Theorems

Helper lemmas come first; the claim theorems are named `claim_Cn` (with
`claim_Cn_counterexample` and `claim_Cn_witness` where applicable). -/

/-- The empty string is a substring of everything. -/
theorem isSubstring_nil (hay : Tok) : isSubstring [] hay = true := by
  induction hay with
  | nil => rfl
  | cons c t ih => simp [isSubstring, List.isPrefixOf]

/-- Dropping an already-dropped prefix is a no-op. -/
theorem dropWhile_dropWhile {α : Type} (p : α → Bool) (l : List α) :
    List.dropWhile p (List.dropWhile p l) = List.dropWhile p l := by
  induction l with
  | nil => rfl
  | cons c t ih =>
    by_cases h : p c
    · simpa [List.dropWhile_cons, h] using ih
    · simp [List.dropWhile_cons, h]

/-- Python `lstrip` is idempotent. -/
theorem pyLStrip_idem (s : List Char) : pyLStrip (pyLStrip s) = pyLStrip s :=
  dropWhile_dropWhile pySpace s

/-- Python `rstrip` is idempotent. -/
theorem pyRStrip_idem (s : List Char) : pyRStrip (pyRStrip s) = pyRStrip s := by
  simp [pyRStrip, dropWhile_dropWhile]

/-- If a list survives `lstrip` unchanged, so does its `rstrip`. -/
theorem pyLStrip_pyRStrip (s : List Char) (h : pyLStrip s = s) :
    pyLStrip (pyRStrip s) = pyRStrip s := by
  cases s with
  | nil => rfl
  | cons c t =>
    simp only [pyLStrip] at h
    have pc : pySpace c = false := by
      cases hpc : pySpace c
      · rfl
      · exfalso
        have h1 : List.dropWhile pySpace (c :: t) = List.dropWhile pySpace t := by
          simp [List.dropWhile_cons, hpc]
        have h2 := congrArg List.length (h1.symm.trans h)
        have h3 : (List.dropWhile pySpace t).length ≤ t.length :=
          List.IsSuffix.length_le (List.dropWhile_suffix pySpace)
        simp only [List.length_cons] at h2
        omega
    show List.dropWhile pySpace (pyRStrip (c :: t)) = pyRStrip (c :: t)
    rcases hu : List.dropWhile pySpace ((c :: t).reverse) with _ | ⟨x, v⟩
    · simp only [pyRStrip, hu, List.reverse_nil, List.dropWhile_nil]
    · have hsuf : (x :: v) <:+ (c :: t).reverse := by
        rw [← hu]; exact List.dropWhile_suffix pySpace
      obtain ⟨pre, hpre⟩ := hsuf
      have e1 : ((c :: t).reverse).getLast? = some c := by
        rw [List.reverse_cons, List.getLast?_append]
        simp
      rw [← hpre, List.getLast?_append] at e1
      have hsome : ((x :: v).getLast?).isSome := by
        rw [List.getLast?_isSome]
        simp
      obtain ⟨y, hy⟩ := Option.isSome_iff_exists.mp hsome
      rw [hy] at e1
      simp only [Option.or] at e1
      have hlast : (x :: v).getLast? = some c := hy.trans e1
      have hhead : ((x :: v).reverse).head? = some c := by
        rw [List.head?_reverse]; exact hlast
      rcases hrev : (x :: v).reverse with _ | ⟨z, w⟩
      · simp [hrev] at hhead
      · rw [hrev] at hhead
        simp only [List.head?_cons, Option.some.injEq] at hhead
        subst hhead
        simp only [pyRStrip, hu, hrev]
        simp [List.dropWhile_cons, pc]

/-- Python `strip` is idempotent. -/
theorem pyStrip_idem (s : List Char) : pyStrip (pyStrip s) = pyStrip s := by
  show pyRStrip (pyLStrip (pyRStrip (pyLStrip s))) = pyRStrip (pyLStrip s)
  rw [pyLStrip_pyRStrip (pyLStrip s) (pyLStrip_idem s), pyRStrip_idem]

/-- C2: for `f(*args, **kwargs)` (catch-all-positional and
catch-all-keyword, no other parameters, no annotations) the pipeline on
the tokens `['foo', 'foo1=bar', 'bar']` produces the positional arguments
`('foo', 'bar')` and the keyword map `{'foo1': 'bar'}`. -/
theorem claim_C2 :
    varKwPipeline (["foo", "foo1=bar", "bar"].map String.toList) =
      .ok ([.vstr "foo".toList, .vstr "bar".toList],
           [("foo1", .vstr "bar".toList)]) := by
  rfl

/-- C4: the default loader-selection table, evaluated in order, picks the
option loader iff the kind is keyword-only or (positional and boolean
type); otherwise the variadic-positional loader iff the kind is
catch-all-positional; otherwise the variadic-keyword loader iff the kind
is catch-all-keyword; otherwise the positional loader. -/
theorem claim_C4 (param : String) (ptype : PType) (kind : PKind)
    (info : Option ParamInfo) (default : DefaultV) :
    (selectLoaderCls param ptype kind info default = .OptArgLoader ↔
      (kind = .opt ∨ (kind = .pos ∧ ptype = .bool)))
  ∧ (selectLoaderCls param ptype kind info default = .VarArgLoader ↔
      (¬(kind = .opt ∨ (kind = .pos ∧ ptype = .bool)) ∧ kind = .var))
  ∧ (selectLoaderCls param ptype kind info default = .MapArgLoader ↔
      (¬(kind = .opt ∨ (kind = .pos ∧ ptype = .bool)) ∧ kind ≠ .var ∧
        kind = .varkw))
  ∧ (selectLoaderCls param ptype kind info default = .PosArgLoader ↔
      (¬(kind = .opt ∨ (kind = .pos ∧ ptype = .bool)) ∧ kind ≠ .var ∧
        kind ≠ .varkw)) := by
  cases kind <;> cases ptype <;> simp [selectLoaderCls]

/-- C5: a raw string whose conversion by the declared type fails produces
a conversion error naming the value and the type and exiting with status
1; in particular for `f(var1: int, var2: bool, *, var3: str,
var4: str = 'bar')` on tokens `['x', '--var3', 'x']` the pipeline stops
with exactly that error, and the exit status is non-zero. -/
theorem claim_C5 :
    (∀ (ptype : PType) (s : List Char), pyCallType ptype s = none →
       conv ptype (.vstr s) = .error (.convError s (typeName ptype) 1))
  ∧ ns2params scenarioLoaders scenarioNs =
      .error (.convError "x".toList "int" 1)
  ∧ (1 : Nat) ≠ 0 := by
  refine ⟨fun ptype s h => ?_, by rfl, by decide⟩
  simp [conv, h]

/-- Witness for C5 at the failing conversion `int('x')`. -/
theorem claim_C5_witness :
    pyCallType .int "x".toList = none ∧
    conv .int (.vstr "x".toList) =
      .error (.convError "x".toList (typeName .int) 1) :=
  ⟨by decide, claim_C5.1 .int "x".toList (by decide)⟩

/-- C10: converting an absent value returns `None` without calling the
type; an `Optional[T]` annotation with no declared default yields a
default of `None`; and loading such an omitted option stores `None` in
the keyword arguments without any possibility of a conversion error. -/
theorem claim_C10 :
    (∀ t : PType, conv t .vnone = .ok .vnone)
  ∧ (∀ t : PType, initLoaderType (.optional t) .noDefault = (t, .val .vnone))
  ∧ (∀ (p : String) (t : PType) (ns : NsModel), nsVal ns p = .vnone →
       loadOne ns ([], []) (.optL p t) = .ok ([], [(p, .vnone)])) := by
  refine ⟨fun t => rfl, fun t => rfl, fun p t ns h => ?_⟩
  simp [loadOne, h, conv, dictSet]

/-- Witness for C10's loading clause at a concrete namespace. -/
theorem claim_C10_witness :
    loadOne ⟨[("x", Calf.Value.vnone)], []⟩ ([], []) (.optL "x" .str) =
      .ok ([], [("x", Calf.Value.vnone)]) :=
  claim_C10.2.2 "x" .str ⟨[("x", .vnone)], []⟩ (by decide)

/-- The token loop with the key=value registration first and the
accept-all registration second sorts every token by `kvMatch`, appending
in input order. -/
theorem distributeGo_two (ts : List Tok) : ∀ a b : List Tok,
    distributeGo [(.kvPattern, "kwargs"), (.substr [], "args")]
      [("kwargs", a), ("args", b)] ts =
    .ok [("kwargs", a ++ ts.filter kvMatch),
         ("args", b ++ ts.filter (fun t => !kvMatch t))] := by
  induction ts with
  | nil => intro a b; simp [distributeGo]
  | cons t ts ih =>
    intro a b
    cases h : kvMatch t with
    | true =>
      have hfind : List.find?
          (fun r => matchArg r.1 t)
          [((.kvPattern : VarIdent), "kwargs"), ((.substr [] : VarIdent), "args")] =
          some (.kvPattern, "kwargs") := by
        simp [List.find?, matchArg, h]
      have happ : nsAppend [("kwargs", a), ("args", b)] "kwargs" t =
          [("kwargs", a ++ [t]), ("args", b)] := by
        simp [nsAppend, nsSet, nsGet, List.find?]
      rw [distributeGo, hfind]
      simp only [happ, ih (a ++ [t]) b, List.filter_cons, h]
      simp
    | false =>
      have hfind : List.find?
          (fun r => matchArg r.1 t)
          [((.kvPattern : VarIdent), "kwargs"), ((.substr [] : VarIdent), "args")] =
          some (.substr [], "args") := by
        simp [List.find?, matchArg, h, isSubstring_nil]
      have happ : nsAppend [("kwargs", a), ("args", b)] "args" t =
          [("kwargs", a), ("args", b ++ [t])] := by
        simp [nsAppend, nsSet, nsGet, List.find?]
      rw [distributeGo, hfind]
      simp only [happ, ih a (b ++ [t]), List.filter_cons, h]
      simp

/-- C1 (amended): with the key=value pattern matcher registered first for
the catch-all-keyword target and the accept-all substring matcher second
for the catch-all-positional target — the order the library actually
registers them in — distribution sends every key=value-shaped token
(`kvMatch`) to the keyword target and every other token to the positional
target, preserving input order within each target. -/
theorem claim_C1 (tokens : List Tok) :
    distribute [(.kvPattern, "kwargs"), (.substr [], "args")]
      [("kwargs", []), ("args", [])] tokens =
    .ok [("kwargs", tokens.filter kvMatch),
         ("args", tokens.filter (fun t => !kvMatch t))] := by
  show distributeGo _ _ _ = _
  have hset : nsSet [("kwargs", ([] : List Tok)), ("args", [])] "kwargs" [] =
      [("kwargs", []), ("args", [])] := by
    simp [nsSet]
  have hget : nsGet [("kwargs", ([] : List Tok)), ("args", [])] "kwargs" = [] := by
    simp [nsGet, List.find?]
  rw [hget, hset]
  simpa using distributeGo_two tokens [] []

/-- C1 counterexample: as the claim orders the registrations — accept-all
matcher first for the positional target, the key=value pattern second —
first-match-wins sends even the key=value-shaped token `a=b` to the
positional target, leaving the keyword target empty, contradicting the
claim that `a=b` lands in the keyword target. -/
theorem claim_C1_counterexample :
    kvMatch "a=b".toList = true ∧
    distribute [(.substr [], "args"), (.kvPattern, "kwargs")]
      [("args", []), ("kwargs", [])] ["a=b".toList] =
    .ok [("args", ["a=b".toList]), ("kwargs", [])] :=
  ⟨rfl, rfl⟩

/-- A token list containing a token no registration matches drives the
distribution loop into the `ValueError`, and the reported token is itself
unmatched. -/
theorem distributeGo_error (regs : List (VarIdent × String)) (ts : List Tok) :
    ∀ ns : Ns, (∃ t ∈ ts, ∀ r ∈ regs, matchArg r.1 t = false) →
    ∃ t', distributeGo regs ns ts = .error t' ∧
      ∀ r ∈ regs, matchArg r.1 t' = false := by
  induction ts with
  | nil => intro ns h; simp at h
  | cons t ts ih =>
    intro ns h
    cases hfind : List.find? (fun r => matchArg r.1 t) regs with
    | none =>
      refine ⟨t, ?_, ?_⟩
      · rw [distributeGo, hfind]
      · intro r hr
        have := List.find?_eq_none.mp hfind r hr
        simpa using this
    | some r0 =>
      obtain ⟨w, hw, hwall⟩ := h
      rcases List.mem_cons.mp hw with hwt | hwts
      · exfalso
        have h1 :=
          @List.find?_some (VarIdent × String) (fun r => matchArg r.1 t) r0 regs hfind
        have h2 : r0 ∈ regs := List.mem_of_find?_eq_some hfind
        have h3 := hwall r0 h2
        simp only [] at h1
        rw [hwt, h1] at h3
        exact absurd h3 (by simp)
      · obtain ⟨t', h1, h2⟩ := ih (nsAppend ns r0.2 t) ⟨w, hwts, hwall⟩
        refine ⟨t', ?_, h2⟩
        rw [distributeGo, hfind]
        exact h1

/-- C6: an overflow token matching no broker registration makes
distribution fail with the raised recognition error, a condition distinct
from the conversion error; in particular for a function whose only
parameter is `**kwargs: str`, the token list `['bar']` produces the
unclassifiable-overflow error and not a conversion error. -/
theorem claim_C6 :
    onlyKwPipeline (["bar"].map String.toList) =
      .error (.unrecognizedArg "bar".toList)
  ∧ (∀ v tn ec, CalfError.unrecognizedArg "bar".toList ≠ .convError v tn ec)
  ∧ (∀ (r0 : VarIdent × String) (rest : List (VarIdent × String)) (ns : Ns)
       (others : List Tok),
       (∃ t ∈ nsGet ns r0.2 ++ others,
          ∀ r ∈ r0 :: rest, matchArg r.1 t = false) →
       ∃ t', distribute (r0 :: rest) ns others = .error t' ∧
         ∀ r ∈ r0 :: rest, matchArg r.1 t' = false) := by
  refine ⟨by rfl, fun v tn ec => by simp, fun r0 rest ns others h => ?_⟩
  exact distributeGo_error (r0 :: rest) (nsGet ns r0.2 ++ others)
    (nsSet ns r0.2 []) h

/-- Witness for C6's general clause at the `**kwargs` scenario input. -/
theorem claim_C6_witness :
    ∃ t', distribute [(Calf.VarIdent.kvPattern, "kwargs")]
        [("kwargs", ["bar".toList])] [] = .error t' ∧
      ∀ r ∈ [(Calf.VarIdent.kvPattern, "kwargs")], matchArg r.1 t' = false :=
  claim_C6.2.2 (.kvPattern, "kwargs") [] [("kwargs", ["bar".toList])] []
    (by decide)

/-- A record whose description rejects the short-option pattern passes
through step 1 unchanged. -/
theorem shortStep_eq_self (p : ParamInfo) (h : shortMatch p.desc = none) :
    shortStep p = p := by
  simp [shortStep, h]

/-- A record whose description rejects the (comma-containing) choice
pattern passes through step 2 unchanged. -/
theorem choiceStep_eq_self (p : ParamInfo)
    (h : (match choiceMatch p.desc with
          | some (_, inside, _) => !inside.contains ','
          | none => true) = true) :
    choiceStep p = p := by
  unfold choiceStep
  cases hc : choiceMatch p.desc with
  | none => rfl
  | some triple =>
    obtain ⟨A, inside, punct⟩ := triple
    rw [hc] at h
    simp only [] at h
    have h' : inside.contains ',' = false := by simpa using h
    simp only [h']
    simp

/-- C3 (amended): the refiner is idempotent on every `ParamInfo` whose
once-refined description matches neither the short-option pattern nor the
comma-containing choice pattern; re-applying it to such a record is a
no-op. -/
theorem claim_C3 (p : ParamInfo)
    (h : refineStable (basicParamParse p).desc = true) :
    basicParamParse (basicParamParse p) = basicParamParse p := by
  have hs : shortMatch (basicParamParse p).desc = none := by
    have := (Bool.and_eq_true _ _).mp h |>.1
    exact Option.isNone_iff_eq_none.mp this
  have hcc : (match choiceMatch (basicParamParse p).desc with
          | some (_, inside, _) => !inside.contains ','
          | none => true) = true :=
    (Bool.and_eq_true _ _).mp h |>.2
  have hdesc : pyStrip (basicParamParse p).desc = (basicParamParse p).desc := by
    show pyStrip (pyStrip (choiceStep (shortStep p)).desc) = _
    rw [pyStrip_idem]
    rfl
  calc basicParamParse (basicParamParse p)
      = { choiceStep (shortStep (basicParamParse p)) with
          desc := pyStrip (choiceStep (shortStep (basicParamParse p))).desc } := rfl
    _ = { basicParamParse p with desc := pyStrip (basicParamParse p).desc } := by
        rw [shortStep_eq_self _ hs, choiceStep_eq_self _ hcc]
    _ = basicParamParse p := by
        rw [hdesc]

/-- Witness for C3 at a stable record. -/
theorem claim_C3_witness :
    basicParamParse (basicParamParse ⟨"hello".toList, [], none⟩) =
      basicParamParse ⟨"hello".toList, [], none⟩ :=
  claim_C3 ⟨"hello".toList, [], none⟩ (by decide)

/-- C3 counterexample: the refiner is not idempotent as claimed.  On the
description `' (-f) x'` the first pass only strips the leading space (the
short-option pattern is anchored at the start, so the leading space blocks
it), after which a second pass extracts `-f` and shortens the description
again. -/
theorem claim_C3_counterexample :
    basicParamParse (basicParamParse ⟨" (-f) x".toList, [], none⟩) ≠
      basicParamParse ⟨" (-f) x".toList, [], none⟩ := by
  decide

/-- Concatenating the groups produced by the accumulating loop restores
the pending accumulator followed by the remaining lines. -/
theorem splitGroupsGo_flatten (ilen : Nat) (ls : List (List Char)) :
    ∀ acc, (splitGroupsGo ilen acc ls).flatten = acc.reverse ++ ls := by
  induction ls with
  | nil => intro acc; simp [splitGroupsGo]
  | cons l ls ih =>
    intro acc
    by_cases h : isGroupStart ilen l
    · simp [splitGroupsGo, h, ih]
    · simp [splitGroupsGo, h, ih]

/-- Concatenating the yielded groups restores the grouped lines. -/
theorem splitGroups_flatten (ilen : Nat) (ls : List (List Char)) :
    (splitGroups ilen ls).flatten = ls := by
  cases ls with
  | nil => rfl
  | cons l ls => simp [splitGroups, splitGroupsGo_flatten]

/-- A list whose first `n` places are spaces has at least `n` leading
spaces. -/
theorem take_replicate_le (n : Nat) (l : List Char)
    (h : l.take n = List.replicate n ' ') :
    n ≤ (l.takeWhile (fun c => c = ' ')).length := by
  induction n generalizing l with
  | zero => exact Nat.zero_le _
  | succ n ih =>
    cases l with
    | nil => simp [List.replicate_succ] at h
    | cons c t =>
      simp only [List.take_succ_cons, List.replicate_succ, List.cons.injEq] at h
      obtain ⟨hc, ht⟩ := h
      subst hc
      have := ih t ht
      simp [List.takeWhile_cons]
      omega

/-- C9: the grouper yields nothing on empty or all-blank input; otherwise,
with `k` the indentation of the first non-blank tab-expanded line, every
line of every yielded group is indented at least `k`, and the groups'
lines in order are exactly the leading run of processed lines indented at
least `k` — a prefix of the processed line sequence. -/
theorem claim_C9 (inp : List Char) :
    (procLines (splitLines inp) = [] → indentedGroups inp = [])
  ∧ (∀ l0 rest, procLines (splitLines inp) = l0 :: rest →
      (∀ g ∈ indentedGroups inp, ∀ l ∈ g,
        (l0.takeWhile (fun c => c = ' ')).length ≤
          (l.takeWhile (fun c => c = ' ')).length)
    ∧ (indentedGroups inp).flatten =
        (l0 :: rest).takeWhile
          (fun l => l.take (l0.takeWhile (fun c => c = ' ')).length =
            List.replicate (l0.takeWhile (fun c => c = ' ')).length ' ')
    ∧ (indentedGroups inp).flatten <+: l0 :: rest) := by
  constructor
  · intro h
    unfold indentedGroups indentedGroupsLines
    rw [h]
  · intro l0 rest h
    have hg : indentedGroups inp =
        splitGroups (l0.takeWhile (fun c => c = ' ')).length
          ((l0 :: rest).takeWhile
            (fun l => l.take (l0.takeWhile (fun c => c = ' ')).length =
              List.replicate (l0.takeWhile (fun c => c = ' ')).length ' ')) := by
      unfold indentedGroups indentedGroupsLines
      rw [h]
    have hflat : (indentedGroups inp).flatten =
        (l0 :: rest).takeWhile
          (fun l => l.take (l0.takeWhile (fun c => c = ' ')).length =
            List.replicate (l0.takeWhile (fun c => c = ' ')).length ' ') := by
      rw [hg, splitGroups_flatten]
    refine ⟨?_, hflat, ?_⟩
    · intro g hgmem l hlmem
      have hmem : l ∈ (indentedGroups inp).flatten :=
        List.mem_flatten.mpr ⟨g, hgmem, hlmem⟩
      rw [hflat] at hmem
      have := List.mem_takeWhile_imp hmem
      have hpred : l.take (l0.takeWhile (fun c => c = ' ')).length =
          List.replicate (l0.takeWhile (fun c => c = ' ')).length ' ' := by
        simpa using this
      exact take_replicate_le _ l hpred
    · rw [hflat]
      exact List.takeWhile_prefix _

/-- Witness for C9 at a small three-line input (the third line dedents
below the baseline and is cut off). -/
theorem claim_C9_witness :
    (∀ g ∈ indentedGroups "  a\n   b\n c".toList, ∀ l ∈ g,
        (("  a".toList).takeWhile (fun c => c = ' ')).length ≤
          (l.takeWhile (fun c => c = ' ')).length)
  ∧ (indentedGroups "  a\n   b\n c".toList).flatten =
      (["  a".toList, "   b".toList, " c".toList]).takeWhile
        (fun l => l.take (("  a".toList).takeWhile (fun c => c = ' ')).length =
          List.replicate (("  a".toList).takeWhile (fun c => c = ' ')).length ' ')
  ∧ (indentedGroups "  a\n   b\n c".toList).flatten <+:
      ["  a".toList, "   b".toList, " c".toList] :=
  (claim_C9 "  a\n   b\n c".toList).2 "  a".toList
    ["   b".toList, " c".toList] (by decide)


/-- When no line matches, the line split finds nothing. -/
theorem splitAtFirst_eq_none (p : List Char → Bool) (ls : List (List Char))
    (h : ∀ l ∈ ls, p l = false) : splitAtFirst p ls = none := by
  induction ls with
  | nil => rfl
  | cons l ls ih =>
    have hl : p l = false := h l (List.mem_cons_self l ls)
    rw [splitAtFirst, hl]
    simp only [Bool.false_eq_true, if_false]
    rw [ih (fun x hx => h x (List.mem_cons_of_mem l hx))]

/-- C8: all four doc parsers are total functions of their input (they
never raise); whenever the dialect structure is absent — no google
section-header line, no sphinx field line, no numpy underline pair — the
parser returns the cleaned full text with an empty parameter map; and on
the empty text all four return an empty summary and an empty map. -/
theorem claim_C8 :
    (∀ doc : List Char,
        plainDocParse doc = (cleandoc doc, [])
      ∧ ((∀ l ∈ splitLines (cleandoc doc), sectionHeaderRe l = false) →
          googleDocParse doc = (cleandoc doc, []))
      ∧ ((∀ l ∈ splitLines (cleandoc doc), sphinxFieldRe l = false) →
          sphinxDocParse doc = (cleandoc doc, []))
      ∧ (numpyFindSep (splitLines (cleandoc doc)) = none →
          numpyDocParse doc = (cleandoc doc, [])))
  ∧ plainDocParse [] = ([], []) ∧ googleDocParse [] = ([], [])
  ∧ sphinxDocParse [] = ([], []) ∧ numpyDocParse [] = ([], []) := by
  refine ⟨fun doc => ⟨rfl, fun hg => ?_, fun hs => ?_, fun hn => ?_⟩,
    rfl, rfl, rfl, rfl⟩
  · unfold googleDocParse
    simp only [splitAtFirst_eq_none _ _ hg]
  · unfold sphinxDocParse
    simp only [splitAtFirst_eq_none _ _ hs]
  · unfold numpyDocParse
    simp only [hn]

/-- Witness for C8's structure-free clauses on a plain two-word text. -/
theorem claim_C8_witness :
    googleDocParse "hello world".toList = (cleandoc "hello world".toList, [])
  ∧ sphinxDocParse "hello world".toList = (cleandoc "hello world".toList, [])
  ∧ numpyDocParse "hello world".toList = (cleandoc "hello world".toList, []) :=
  ⟨(claim_C8.1 "hello world".toList).2.1 (by decide),
   (claim_C8.1 "hello world".toList).2.2.1 (by decide),
   (claim_C8.1 "hello world".toList).2.2.2 (by decide)⟩


/-- Stripping a concatenated prefix strips the two parts in turn. -/
theorem stripPrefixCh_append (u v l : List Char) :
    stripPrefixCh (u ++ v) l = (stripPrefixCh u l).bind (stripPrefixCh v) := by
  induction u generalizing l with
  | nil => simp [stripPrefixCh]
  | cons c cs ih =>
    cases l with
    | nil => simp [stripPrefixCh]
    | cons d ds =>
      by_cases h : c == d
      · simp [stripPrefixCh, h, ih]
      · simp [stripPrefixCh, h]

/-- The regex alternative `stem` + `s?:\s*$` accepts a line exactly when
the full word `stem` or the full word `stem ++ "s"` does. -/
theorem stem_expand (w l : List Char) :
    (match stripPrefixCh w l with
     | some r => reSectionTail r
     | none => false) =
    ((match stripPrefixCh w l with
      | some r => colonWsTail r
      | none => false) ||
     (match stripPrefixCh (w ++ ['s']) l with
      | some r => colonWsTail r
      | none => false)) := by
  rw [stripPrefixCh_append w ['s'] l]
  cases h : stripPrefixCh w l with
  | none => rfl
  | some r =>
    simp only [Option.some_bind]
    cases r with
    | nil => rfl
    | cons c rest =>
      by_cases hc : c = ':'
      · subst hc
        simp [reSectionTail, colonWsTail, stripPrefixCh]
      · by_cases hs2 : c = 's'
        · subst hs2
          simp only [reSectionTail, colonWsTail, stripPrefixCh]
          simp
        · simp [reSectionTail, colonWsTail, stripPrefixCh, hc, hs2, Ne.symm hs2]

/-- Expanding every stem into its singular and plural words converts the
stem-based matcher into the word-based one. -/
theorem stemHeaderRe_eq (stems : List (List Char)) (l : List Char) :
    stemHeaderRe stems l =
      wordHeaderLine (stems.flatMap (fun w => [w, w ++ ['s']])) l := by
  induction stems with
  | nil => rfl
  | cons w ws ih =>
    simp only [stemHeaderRe, List.any_cons] at *
    rw [stem_expand w l, ih]
    simp [wordHeaderLine, List.any_cons, List.any_append, Bool.or_assoc]

/-- The source's section-header regex coincides with the specification's
word list. -/
theorem sectionHeaderRe_eq (l : List Char) :
    sectionHeaderRe l = wordHeaderLine specHeaderWords l := by
  have h : specHeaderWords = headerStems.flatMap (fun w => [w, w ++ ['s']]) := by
    decide
  rw [h]
  exact stemHeaderRe_eq headerStems l

/-- The source's `Args?:` regex coincides with the specification's two
words. -/
theorem argsHeaderRe_eq (l : List Char) :
    argsHeaderRe l = wordHeaderLine specArgsWords l := by
  have h : specArgsWords = (["Arg".toList]).flatMap (fun w => [w, w ++ ['s']]) := by
    decide
  rw [h]
  exact stemHeaderRe_eq ["Arg".toList] l

/-- C7 (amended): the google parser behaves exactly as the specification
sentence describes once the trailing colon is made mandatory: it splits
at the first line consisting of a section header word (singular or
plural, case-sensitive) followed by a colon and optional whitespace,
keeps the text before it as the summary, and builds the parameter map
only from the sub-block after a literal `Args`/`Arg` header line, cutting
each group's name at the first space or open parenthesis and trimming the
text after the first colon. -/
theorem claim_C7 (doc : List Char) : googleDocParse doc = googleDocClaim doc := by
  have h1 : sectionHeaderRe = wordHeaderLine specHeaderWords :=
    funext sectionHeaderRe_eq
  have h2 : argsHeaderRe = wordHeaderLine specArgsWords :=
    funext argsHeaderRe_eq
  unfold googleDocParse googleDocClaim
  rw [h1, h2]

/-- C7 counterexample: the claim's optional trailing colon is wrong.  On
`'Top\nReturns\n  x:d'` the claim predicts the split at the bare line
`Returns` and a summary of `'Top\n'`; the code requires the colon, finds
no header, and keeps the whole cleaned text as the summary. -/
theorem claim_C7_counterexample :
    (googleDocParse "Top\nReturns\n  x:d".toList).1 =
      cleandoc "Top\nReturns\n  x:d".toList
  ∧ (googleDocParse "Top\nReturns\n  x:d".toList).1 ≠ "Top\n".toList :=
  ⟨rfl, by decide⟩

end Calf
